import Mathlib

/-!
Verification of `xpcom/ds/Atom.py`: a shallow embedding of the module's
pure functions (`rotate_left_5`, `wrapping_multiply`, `hash_string`,
`is_ascii_lowercase`) and the `Atom` constructor, together with theorems
checking the natural-language specification against this embedding.

Python strings are modelled as `List Char`; `ord c` is `Char.toNat`.
Python integers are unbounded, hence `Nat` with explicit masking, exactly
as in the source.
-/

/-- The 32-bit golden-ratio multiplicative-hashing constant from the source. -/
def GOLDEN_RATIO_U32 : Nat := 0x9E3779B9

/-- Embeds `rotate_left_5(value)`: `((value << 5) | (value >> 27)) & 0xFFFFFFFF`. -/
def rotate_left_5 (value : Nat) : Nat :=
  ((value <<< 5) ||| (value >>> 27)) &&& 0xFFFFFFFF

/-- Embeds `wrapping_multiply(x, y)`: `(x * y) & 0xFFFFFFFF`. -/
def wrapping_multiply (x y : Nat) : Nat :=
  (x * y) &&& 0xFFFFFFFF

/-- The loop body of `hash_string`: one iteration of
`h = wrapping_multiply(GOLDEN_RATIO_U32, rotate_left_5(h) ^ ord(c))`. -/
def hashStep (h : Nat) (c : Char) : Nat :=
  wrapping_multiply GOLDEN_RATIO_U32 (rotate_left_5 h ^^^ c.toNat)

/-- Embeds `hash_string(s)`: fold of the loop body over the characters,
starting from `h = 0`. -/
def hash_string (s : List Char) : Nat :=
  s.foldl hashStep 0

/-- Embeds `is_ascii_lowercase(s)`: returns `false` on the first character
`c` with `"A" <= c <= "Z"` (Python compares single-character strings by
code point, as `Char`'s order does), else `true` after the loop. -/
def is_ascii_lowercase : List Char → Bool
  | [] => true
  | c :: rest => if 'A' ≤ c ∧ c ≤ 'Z' then false else is_ascii_lowercase rest

/-- Embeds the `Atom` class: `__init__(self, ident, string)` stores the
identity token, the text, and the two computed fields. -/
structure Atom (ι : Type) where
  ident : ι
  string : List Char
  hash : Nat
  is_ascii_lowercase : Bool

/-- Embeds `Atom.__init__`: the only constructor of the component;
`hash` and `is_ascii_lowercase` are computed from `string` alone. -/
def atomInit {ι : Type} (ident : ι) (string : List Char) : Atom ι :=
  Atom.mk ident string (hash_string string) (is_ascii_lowercase string)

/-- The spec's wording of the 32-bit left rotation by 5:
`((h << 5) | (h >> 27)) & 0xFFFFFFFF`. -/
def rotl32_spec (h : Nat) : Nat :=
  ((h <<< 5) ||| (h >>> 27)) &&& 0xFFFFFFFF

/-- The spec's wording of the hash recurrence: `h = 0`, then for each
character `h = (0x9E3779B9 * (rotl(h) XOR codepoint)) mod 2^32`. -/
def hash_spec (s : List Char) : Nat :=
  s.foldl (fun h c => (0x9E3779B9 * (rotl32_spec h ^^^ c.toNat)) % 2 ^ 32) 0

/-- The unmasked arbitrary-precision variant of the same recurrence:
no `& 0xFFFFFFFF` after the shifts or the multiply. -/
def hash_unmasked (s : List Char) : Nat :=
  s.foldl (fun h c => 0x9E3779B9 * (((h <<< 5) ||| (h >>> 27)) ^^^ c.toNat)) 0

/-- The spec's safety variant of the hash that additionally masks the
XOR result (`mixed`) to 32 bits before the wrapping multiply. -/
def hash_mask_mixed (s : List Char) : Nat :=
  s.foldl (fun h c =>
    wrapping_multiply GOLDEN_RATIO_U32 ((rotate_left_5 h ^^^ c.toNat) % 2 ^ 32)) 0

/-- The standard 32-bit right rotation by 5, used to state that
`rotate_left_5` is inverted by rotating right by 5 on `[0, 2^32)`. -/
def rotate_right_5 (value : Nat) : Nat :=
  ((value >>> 5) ||| (value <<< 27)) &&& 0xFFFFFFFF

/- ### Helper lemmas -/

/-- Masking with `0xFFFFFFFF` is reduction modulo `2^32`. -/
theorem mask_eq_mod (x : Nat) : x &&& 0xFFFFFFFF = x % 2 ^ 32 := by
  have h : (0xFFFFFFFF : Nat) = 2 ^ 32 - 1 := by norm_num
  rw [h, Nat.and_pow_two_sub_one_eq_mod]

/-- Any masked value is below `2^32`. -/
theorem mask_lt (x : Nat) : x &&& 0xFFFFFFFF < 2 ^ 32 := by
  rw [mask_eq_mod]
  exact Nat.mod_lt _ (by norm_num)

theorem rotate_left_5_lt (v : Nat) : rotate_left_5 v < 2 ^ 32 :=
  mask_lt _

theorem hashStep_lt (h : Nat) (c : Char) : hashStep h c < 2 ^ 32 :=
  mask_lt _

/-- On inputs below `2^32`, `rotate_left_5` is the arithmetic rotation
`(v % 2^27) * 32 + v / 2^27`. -/
theorem rotate_left_5_arith (v : Nat) (hv : v < 2 ^ 32) :
    rotate_left_5 v = v % 2 ^ 27 * 32 + v / 2 ^ 27 := by
  unfold rotate_left_5
  rw [Nat.shiftLeft_eq, Nat.shiftRight_eq_div_pow, mask_eq_mod]
  have hb : v / 2 ^ 27 < 2 ^ 5 := by omega
  rw [show v * 2 ^ 5 = 2 ^ 5 * v from Nat.mul_comm _ _,
    ← Nat.mul_add_lt_is_or hb]
  omega

/-- On inputs below `2^32`, `rotate_right_5` is the arithmetic rotation
`(v % 32) * 2^27 + v / 32`. -/
theorem rotate_right_5_arith (v : Nat) (hv : v < 2 ^ 32) :
    rotate_right_5 v = v % 32 * 2 ^ 27 + v / 32 := by
  unfold rotate_right_5
  rw [Nat.shiftLeft_eq, Nat.shiftRight_eq_div_pow, mask_eq_mod]
  have hb : v / 2 ^ 5 < 2 ^ 27 := by omega
  rw [show v * 2 ^ 27 = 2 ^ 27 * v from Nat.mul_comm _ _, Nat.lor_comm,
    ← Nat.mul_add_lt_is_or hb]
  omega

/-- The fold of the loop body keeps the accumulator below `2^32`. -/
theorem foldl_hashStep_lt (s : List Char) (h : Nat) (hh : h < 2 ^ 32) :
    s.foldl hashStep h < 2 ^ 32 := by
  induction s generalizing h with
  | nil => exact hh
  | cons c rest ih => exact ih _ (hashStep_lt h c)

/-- Every character's code point is below `2^32`. -/
theorem char_toNat_lt (c : Char) : c.toNat < 2 ^ 32 :=
  c.val.toBitVec.isLt

/-- A character is in the Python range `"A" <= c <= "Z"` exactly when its
code point is in `[0x41, 0x5A]`. -/
theorem char_upper_iff (c : Char) :
    ('A' ≤ c ∧ c ≤ 'Z') ↔ (0x41 ≤ c.toNat ∧ c.toNat ≤ 0x5A) :=
  Iff.rfl

/-- The step functions of `hash_string` and of the spec's recurrence agree. -/
theorem hashStep_eq_spec :
    hashStep = fun h c => (0x9E3779B9 * (rotl32_spec h ^^^ c.toNat)) % 2 ^ 32 := by
  funext h c
  simp only [hashStep, wrapping_multiply, GOLDEN_RATIO_U32, rotl32_spec,
    rotate_left_5, mask_eq_mod]

/-- The step function of `hash_mask_mixed` agrees with the one of
`hash_string`: the extra mask on the XOR result is the identity. -/
theorem hashStep_eq_mask_mixed :
    (fun h c => wrapping_multiply GOLDEN_RATIO_U32
        ((rotate_left_5 h ^^^ Char.toNat c) % 2 ^ 32)) = hashStep := by
  funext h c
  have hx : rotate_left_5 h ^^^ c.toNat < 2 ^ 32 :=
    Nat.xor_lt_two_pow (rotate_left_5_lt h) (char_toNat_lt c)
  simp only [hashStep, Nat.mod_eq_of_lt hx]

/-- C1: `hash_string` computes exactly the spec's recurrence: `h = 0`,
then `h = (0x9E3779B9 * (rotl32(h) XOR codepoint)) mod 2^32` for each
character in order, with the rotate before the XOR and the XOR before
the multiply. -/
theorem hash_string_eq_spec_recurrence (s : List Char) :
    hash_string s = hash_spec s := by
  simp only [hash_string, hash_spec, hashStep_eq_spec]

/-- C2: `is_ascii_lowercase s` is `true` iff no character of `s` has a
code point in `[0x41, 0x5A]`; in particular the empty string yields
`true`, and non-ASCII characters, digits, punctuation and lowercase
ASCII letters never force a `false`. -/
theorem is_ascii_lowercase_iff (s : List Char) :
    is_ascii_lowercase s = true ↔
      ∀ c ∈ s, ¬(0x41 ≤ c.toNat ∧ c.toNat ≤ 0x5A) := by
  induction s with
  | nil => simp [is_ascii_lowercase]
  | cons c rest ih =>
    rw [is_ascii_lowercase]
    by_cases hc : 'A' ≤ c ∧ c ≤ 'Z'
    · rw [if_pos hc]
      constructor
      · intro h
        exact absurd h (by simp)
      · intro h
        exact absurd ((char_upper_iff c).mp hc) (h c (List.mem_cons_self c rest))
    · rw [if_neg hc, ih]
      constructor
      · intro h d hd
        rcases List.mem_cons.mp hd with rfl | hd
        · exact (char_upper_iff d).not.mp hc
        · exact h d hd
      · intro h d hd
        exact h d (List.mem_cons_of_mem c hd)

/-- C3: `hash_string` always lands in `[0, 2^32)`, and on the single
character `"a"` the masked result differs from the unmasked
arbitrary-precision value of the same recurrence. -/
theorem hash_string_lt_and_wraps :
    (∀ s : List Char, hash_string s < 2 ^ 32) ∧
      hash_string ['a'] ≠ hash_unmasked ['a'] := by
  constructor
  · intro s
    exact foldl_hashStep_lt s 0 (by norm_num)
  · decide

/-- C4: the hash of the empty character sequence is `0`. -/
theorem hash_string_nil : hash_string [] = 0 := rfl

/-- C5: `hash_string` is deterministic: identical input sequences give
identical results, with no seed or state parameter in the function. -/
theorem hash_string_deterministic (s₁ s₂ : List Char) (h : s₁ = s₂) :
    hash_string s₁ = hash_string s₂ := by rw [h]

/-- Witness for C5 at the concrete input `"a"`. -/
theorem hash_string_deterministic_witness :
    ['a'] = ['a'] ∧ hash_string ['a'] = hash_string ['a'] :=
  ⟨rfl, hash_string_deterministic ['a'] ['a'] rfl⟩

/-- C6: both functions are total: on every finite character sequence
`hash_string` returns a value (below `2^32`) and `is_ascii_lowercase`
returns a boolean; neither has an error case. -/
theorem hash_and_lowercase_total (s : List Char) :
    hash_string s < 2 ^ 32 ∧
      (is_ascii_lowercase s = true ∨ is_ascii_lowercase s = false) :=
  ⟨foldl_hashStep_lt s 0 (by norm_num), by cases is_ascii_lowercase s <;> simp⟩

/-- C7: for strings whose code points are all below `2^32` (every `Char`
is), `hash_string`, which XORs the raw code point, agrees with the
spec's variant that masks the XOR result to 32 bits before the
multiply. -/
theorem hash_string_eq_mask_mixed (s : List Char)
    (h : ∀ c ∈ s, c.toNat < 2 ^ 32) :
    hash_string s = hash_mask_mixed s := by
  simp only [hash_string, hash_mask_mixed, hashStep_eq_mask_mixed]

/-- Witness for C7 at the concrete input `"a"`. -/
theorem hash_string_eq_mask_mixed_witness :
    (∀ c ∈ ['a'], c.toNat < 2 ^ 32) ∧
      hash_string ['a'] = hash_mask_mixed ['a'] :=
  ⟨by decide, hash_string_eq_mask_mixed ['a'] (by decide)⟩

/-- C8: the `Atom` built from any identity token and text has `hash`
equal to `hash_string` of the text and `is_ascii_lowercase` equal to
`is_ascii_lowercase` of the text; both are computed at construction
from the text alone. -/
theorem atomInit_fields {ι : Type} (ident : ι) (s : List Char) :
    (atomInit ident s).hash = hash_string s ∧
      (atomInit ident s).is_ascii_lowercase = is_ascii_lowercase s :=
  ⟨rfl, rfl⟩

/-- C9: the identity token does not influence the computed fields: two
atoms over the same text but arbitrary identity tokens (even of
different types) have equal `hash` and equal `is_ascii_lowercase`. -/
theorem atomInit_noninterference {ι₁ ι₂ : Type}
    (ident₁ : ι₁) (ident₂ : ι₂) (s : List Char) :
    (atomInit ident₁ s).hash = (atomInit ident₂ s).hash ∧
      (atomInit ident₁ s).is_ascii_lowercase =
        (atomInit ident₂ s).is_ascii_lowercase :=
  ⟨rfl, rfl⟩

/-- C10: the accumulator stays in `[0, 2^32)` across every iteration of
`hash_string` (starting from `0`), and on `[0, 2^32)` the function
`rotate_left_5` stays in range, is inverted on both sides by
`rotate_right_5`, and is a bijection of `[0, 2^32)` onto itself. -/
theorem hash_loop_invariant :
    (∀ (s : List Char) (h : Nat),
        h < 2 ^ 32 → s.foldl hashStep h < 2 ^ 32) ∧
    (∀ v : Nat, v < 2 ^ 32 →
        rotate_left_5 v < 2 ^ 32 ∧ rotate_right_5 (rotate_left_5 v) = v) ∧
    (∀ v : Nat, v < 2 ^ 32 → rotate_left_5 (rotate_right_5 v) = v) ∧
    Set.BijOn rotate_left_5 (Set.Iio (2 ^ 32)) (Set.Iio (2 ^ 32)) := by
  have hrl : ∀ v : Nat, v < 2 ^ 32 → rotate_right_5 (rotate_left_5 v) = v := by
    intro v hv
    rw [rotate_left_5_arith v hv,
      rotate_right_5_arith _ (by omega)]
    omega
  have hlr : ∀ v : Nat, v < 2 ^ 32 → rotate_left_5 (rotate_right_5 v) = v := by
    intro v hv
    rw [rotate_right_5_arith v hv,
      rotate_left_5_arith _ (by omega)]
    omega
  refine ⟨fun s h hh => foldl_hashStep_lt s h hh,
    fun v hv => ⟨rotate_left_5_lt v, hrl v hv⟩, hlr, ?_⟩
  have hmaps : Set.MapsTo rotate_left_5 (Set.Iio (2 ^ 32)) (Set.Iio (2 ^ 32)) :=
    fun v _ => rotate_left_5_lt v
  have hmaps' : Set.MapsTo rotate_right_5 (Set.Iio (2 ^ 32)) (Set.Iio (2 ^ 32)) :=
    fun v _ => mask_lt _
  exact Set.InvOn.bijOn ⟨fun v hv => hrl v hv, fun v hv => hlr v hv⟩ hmaps hmaps'

/-- Witness for C10 at concrete inputs. -/
theorem hash_loop_invariant_witness :
    List.foldl hashStep 3 ['a'] < 2 ^ 32 ∧
      rotate_right_5 (rotate_left_5 7) = 7 ∧
      rotate_left_5 (rotate_right_5 7) = 7 :=
  ⟨hash_loop_invariant.1 ['a'] 3 (by norm_num),
    (hash_loop_invariant.2.1 7 (by norm_num)).2,
    hash_loop_invariant.2.2.1 7 (by norm_num)⟩
